import Mathlib

/-!
Shallow embedding of the quasi-static r-z plasma wakefield solver
(wake_t/physics_models/plasma_wakefields/qs_rz_baxevanis/solver.py) and
of the Boris momentum push (wake_t/particles/push/boris_pusher.py),
together with theorems checking the specification's claims.

Machine floating point is modelled by exact real arithmetic.  Numpy
arrays are modelled by lists (inputs) and by functions from indices
(outputs written by index loops).  np.argsort is modelled by a stable
insertion sort of the index list; none of the checked claims depends on
the tie-breaking order of the sort.
-/

/-- Fold over a list of particle indices, threading an accumulator with
the update `upd` and writing, for each visited index, the value `val`
of the pre-update state at that index into an index-addressed output
array.  This is the shape of every sorted per-particle loop of the
solver.  Returns the output array and the final accumulator. -/
def idxFoldWrite {σ β : Type} (upd : σ → Nat → σ) (val : σ → Nat → β) :
    List Nat → σ → (Nat → β) → (Nat → β) × σ
  | [], s, A => (A, s)
  | i :: is, s, A => idxFoldWrite upd val is (upd s i) (Function.update A i (val s i))

theorem idxFoldWrite_snd {σ β : Type} (upd : σ → Nat → σ) (val : σ → Nat → β) :
    ∀ (is : List Nat) (s : σ) (A : Nat → β),
      (idxFoldWrite upd val is s A).2 = is.foldl upd s := by
  intro is
  induction is with
  | nil => intro s A; rfl
  | cons i is ih => intro s A; simp [idxFoldWrite, ih]

theorem idxFoldWrite_append {σ β : Type} (upd : σ → Nat → σ) (val : σ → Nat → β)
    (l₁ l₂ : List Nat) : ∀ (s : σ) (A : Nat → β),
      idxFoldWrite upd val (l₁ ++ l₂) s A =
        idxFoldWrite upd val l₂ (l₁.foldl upd s) (idxFoldWrite upd val l₁ s A).1 := by
  induction l₁ with
  | nil => intro s A; rfl
  | cons i is ih => intro s A; simp [idxFoldWrite, ih]

theorem idxFoldWrite_fst_not_mem {σ β : Type} (upd : σ → Nat → σ) (val : σ → Nat → β)
    (j : Nat) : ∀ (is : List Nat) (s : σ) (A : Nat → β), j ∉ is →
      (idxFoldWrite upd val is s A).1 j = A j := by
  intro is
  induction is with
  | nil => intro s A _; rfl
  | cons i is ih =>
    intro s A hj
    rw [List.mem_cons, not_or] at hj
    simp only [idxFoldWrite]
    rw [ih _ _ hj.2, Function.update_noteq hj.1]

/-- The value stored at an index `j` is the one written by the last
visit of `j`: `val` of the state accumulated over the indices before
that visit. -/
theorem idxFoldWrite_fst_split {σ β : Type} (upd : σ → Nat → σ) (val : σ → Nat → β)
    (l₁ l₂ : List Nat) (j : Nat) (s : σ) (A : Nat → β) (hj : j ∉ l₂) :
    (idxFoldWrite upd val (l₁ ++ j :: l₂) s A).1 j = val (l₁.foldl upd s) j := by
  rw [idxFoldWrite_append]
  simp only [idxFoldWrite]
  rw [idxFoldWrite_fst_not_mem _ _ _ _ _ _ hj, Function.update_same]

theorem nodup_not_mem_of_split {α : Type} {l l₁ l₂ : List α} {j : α}
    (hn : l.Nodup) (hsplit : l = l₁ ++ j :: l₂) : j ∉ l₂ := by
  subst hsplit
  rcases List.nodup_append.1 hn with ⟨-, hc, -⟩
  exact (List.nodup_cons.1 hc).1

/-- np.argsort by ascending key, modelled as a stable insertion sort of
the index list 0..n-1. -/
noncomputable def argsort (key : Nat → ℝ) (n : Nat) : List Nat :=
  List.insertionSort (fun i j => key i ≤ key j) (List.range n)

theorem argsort_perm (key : Nat → ℝ) (n : Nat) :
    (argsort key n).Perm (List.range n) :=
  List.perm_insertionSort _ _

theorem argsort_nodup (key : Nat → ℝ) (n : Nat) : (argsort key n).Nodup :=
  ((argsort_perm key n).nodup_iff).2 (List.nodup_range n)

theorem argsort_mem_lt (key : Nat → ℝ) (n : Nat) {i : Nat}
    (h : i ∈ argsort key n) : i < n :=
  List.mem_range.1 ((argsort_perm key n).mem_iff.1 h)

theorem argsort_length (key : Nat → ℝ) (n : Nat) : (argsort key n).length = n := by
  rw [(argsort_perm key n).length_eq, List.length_range]

theorem argsort_sorted (key : Nat → ℝ) (n : Nat) :
    (argsort key n).Sorted (fun i j => key i ≤ key j) := by
  haveI : IsTotal Nat (fun i j => key i ≤ key j) := ⟨fun a b => le_total (key a) (key b)⟩
  haveI : IsTrans Nat (fun i j => key i ≤ key j) := ⟨fun _ _ _ h1 h2 => le_trans h1 h2⟩
  exact List.sorted_insertionSort _ _

/-- On an input whose keys are already nondecreasing in index order, the
stable sort returns the identity permutation. -/
theorem argsort_eq_range (key : Nat → ℝ) (n : Nat)
    (h : ∀ i j, i < j → j < n → key i ≤ key j) : argsort key n = List.range n := by
  apply List.Sorted.insertionSort_eq
  rw [List.Sorted, List.pairwise_iff_getElem]
  intro i j hi hj hij
  simp only [List.getElem_range]
  exact h i j hij (by simpa using hj)

/-- The generic correspondence between an index list over a list's
positions and the list itself. -/
theorem map_getD_range {α : Type} (l : List α) (d : α) :
    (List.range l.length).map (fun i => l.getD i d) = l := by
  induction l with
  | nil => rfl
  | cons a t ih =>
    rw [List.length_cons, List.range_succ_eq_map, List.map_cons, List.map_map]
    have hc : ((fun i => (a :: t).getD i d) ∘ Nat.succ) = fun i => t.getD i d := by
      funext i
      simp
    rw [List.getD_cons_zero, hc, ih]

/-- One step of the running sums (Σ q, Σ q log r) threaded by the sorted
psi loops of the solver. -/
noncomputable def psiSumStep (r q : List ℝ) (s : ℝ × ℝ) (i : Nat) : ℝ × ℝ :=
  (s.1 + q.getD i 0, s.2 + q.getD i 0 * Real.log (r.getD i 0))

theorem psiSumStep_foldl (r q : List ℝ) :
    ∀ (l : List Nat) (a b : ℝ),
      l.foldl (psiSumStep r q) (a, b) =
        (a + (l.map (fun i => q.getD i 0)).sum,
         b + (l.map (fun i => q.getD i 0 * Real.log (r.getD i 0))).sum) := by
  intro l
  induction l with
  | nil => intro a b; simp
  | cons i is ih =>
    intro a b
    simp only [List.foldl_cons, List.map_cons, List.sum_cons, psiSumStep, ih]
    rw [Prod.mk.injEq]
    constructor <;> ring

/-- The calibration offset subtracted from psi at the end of both psi
computations (solver.py lines 465-466 and 516-517): the raw formula
evaluated with the final running sums at r_N = r[-1], the last entry of
the input array in input order. -/
noncomputable def psi_offset (r q : List ℝ) : ℝ :=
  let s := (argsort (fun i => r.getD i 0) r.length).foldl (psiSumStep r q) (0, 0)
  let r_N := r.getD (r.length - 1) 0
  s.1 * Real.log r_N - s.2 - 0.25 * r_N ^ 2

/-- Uncalibrated psi written at a particle by the sorted loop of
calculate_psi_and_derivatives_at_particles: the raw formula taken with
the average of the running sums before and after the particle. -/
noncomputable def psiPartVal (r q : List ℝ) (s : ℝ × ℝ) (i : Nat) : ℝ :=
  0.5 * (s.1 + (psiSumStep r q s i).1) * Real.log (r.getD i 0)
    - 0.5 * (s.2 + (psiSumStep r q s i).2) - 0.25 * (r.getD i 0) ^ 2

/-- Calibrated psi at the plasma particles, from
calculate_psi_and_derivatives_at_particles. -/
noncomputable def psiAt (r q : List ℝ) : Nat → ℝ := fun i =>
  (idxFoldWrite (psiSumStep r q) (psiPartVal r q)
      (argsort (fun j => r.getD j 0) r.length) (0, 0) (fun _ => 0)).1 i
    - psi_offset r q

/-- Lorentz factor loop of calculate_derivatives (solver.py 311-314). -/
noncomputable def gamma_derivatives (r pr q a2 : List ℝ) : Nat → ℝ := fun i =>
  (1 + (pr.getD i 0) ^ 2 + a2.getD i 0 + (1 + psiAt r q i) ^ 2) /
    (2 * (1 + psiAt r q i))

/-- Lorentz factor line of calculate_fields (solver.py 407). -/
noncomputable def gamma_fields (r pr q a2 : List ℝ) : Nat → ℝ := fun i =>
  (1 + (pr.getD i 0) ^ 2 + a2.getD i 0 / 2 + (1 + psiAt r q i) ^ 2) /
    (2 * (1 + psiAt r q i))

/-- Stated from the spec's words (for comparison with the code): the
claimed per-particle Lorentz factor, with the laser term a2 entering
with coefficient 1. -/
noncomputable def gammaSpec (pr a2 psi : ℝ) : ℝ :=
  (1 + pr ^ 2 + a2 + (1 + psi) ^ 2) / (2 * (1 + psi))

/-- Stated from the claim's words: the raw uncalibrated psi formula with
the total sums, evaluated at radius x. -/
noncomputable def raw_psi (r q : List ℝ) (x : ℝ) : ℝ :=
  ((List.range r.length).map (fun i => q.getD i 0)).sum * Real.log x
    - ((List.range r.length).map (fun i => q.getD i 0 * Real.log (r.getD i 0))).sum
    - 0.25 * x ^ 2

/-- The break-scan shared by the probe-mode loops of
calculate_psi_and_derivatives and calculate_b_theta: one less than the
first sorted position whose radius reaches rj, and the last sorted
position when no radius reaches rj. -/
noncomputable def i_last_scan (rj : ℝ) : List ℝ → Int
  | [] => -1
  | hd :: tl => if rj ≤ hd then -1 else i_last_scan rj tl + 1

theorem i_last_scan_eq_takeWhile (rj : ℝ) :
    ∀ rs : List ℝ, i_last_scan rj rs =
      ((rs.takeWhile (fun x => decide (x < rj))).length : Int) - 1 := by
  intro rs
  induction rs with
  | nil => rfl
  | cons hd tl ih =>
    by_cases h : rj ≤ hd
    · have : (decide (hd < rj)) = false := decide_eq_false (not_lt.2 h)
      simp [i_last_scan, h, List.takeWhile_cons, this]
    · have hlt : hd < rj := lt_of_not_le h
      have : (decide (hd < rj)) = true := decide_eq_true hlt
      simp only [i_last_scan, if_neg h, List.takeWhile_cons, this, ih, if_true,
        eq_self_iff_true, List.length_cons]
      omega

/-- Per-particle running sums written by the first sorted pass of
calculate_psi_and_derivatives (sum_1_arr, sum_2_arr), and the final
sums. -/
noncomputable def psiSumsArr (r q : List ℝ) : (Nat → ℝ × ℝ) × (ℝ × ℝ) :=
  idxFoldWrite (psiSumStep r q) (fun s i => psiSumStep r q s i)
    (argsort (fun i => r.getD i 0) r.length) (0, 0) (fun _ => (0, 0))

/-- Calibrated psi of the probe-mode calculate_psi_and_derivatives at a
single probe radius rj (the probe loop handles each probe radius by an
independent scan). -/
noncomputable def psi_probe (r q : List ℝ) (rj : ℝ) : ℝ :=
  (if i_last_scan rj ((argsort (fun i => r.getD i 0) r.length).map
        (fun i => r.getD i 0)) = -1 then
    -0.25 * rj ^ 2
  else
    ((psiSumsArr r q).1 ((argsort (fun i => r.getD i 0) r.length).getD
        (i_last_scan rj ((argsort (fun i => r.getD i 0) r.length).map
          (fun i => r.getD i 0))).toNat 0)).1 * Real.log rj
      - ((psiSumsArr r q).1 ((argsort (fun i => r.getD i 0) r.length).getD
        (i_last_scan rj ((argsort (fun i => r.getD i 0) r.length).map
          (fun i => r.getD i 0))).toNat 0)).2
      - 0.25 * rj ^ 2)
    - psi_offset r q

theorem argsort_one_elem (key : Nat → ℝ) : argsort key 1 = [0] := by
  rw [argsort, show List.range 1 = [0] from rfl]
  simp [List.insertionSort]

theorem argsort_two_desc (key : Nat → ℝ) (h : ¬ key 0 ≤ key 1) :
    argsort key 2 = [1, 0] := by
  rw [argsort, show List.range 2 = [0, 1] from rfl]
  simp only [List.insertionSort, List.orderedInsert]
  rw [if_neg h]

theorem argsort_two_asc (key : Nat → ℝ) (h : key 0 ≤ key 1) :
    argsort key 2 = [0, 1] := by
  rw [argsort, show List.range 2 = [0, 1] from rfl]
  simp only [List.insertionSort, List.orderedInsert]
  rw [if_pos h]

/-- The final running sums of the sorted psi passes are the totals over
all particles. -/
theorem psi_sums_total (r q : List ℝ) :
    (argsort (fun i => r.getD i 0) r.length).foldl (psiSumStep r q) (0, 0) =
      (((List.range r.length).map (fun i => q.getD i 0)).sum,
       ((List.range r.length).map (fun i => q.getD i 0 * Real.log (r.getD i 0))).sum) := by
  rw [psiSumStep_foldl]
  have h := argsort_perm (fun i => r.getD i 0) r.length
  rw [Prod.mk.injEq]
  constructor
  · rw [(h.map (fun i => q.getD i 0)).sum_eq]
    ring
  · rw [(h.map (fun i => q.getD i 0 * Real.log (r.getD i 0))).sum_eq]
    ring

/-- Claim C1, counterexample: at a single particle with r=1, pr=0, q=1,
a2=1 (whose calibrated psi is 0), the Lorentz factor computed by the
probe-mode calculate_fields is (1+0+1/2+1)/2 = 5/4, not the claimed
(1+0+1+1)/2 = 3/2: the laser term enters calculate_fields with
coefficient 1/2, not 1. -/
theorem C1_counterexample :
    gamma_fields [1] [0] [1] [1] 0 ≠ gammaSpec 0 1 (psiAt [1] [1] 0) := by
  have hpsi : psiAt [1] [1] 0 = 0 := by
    simp only [psiAt, psi_offset, show ([1] : List ℝ).length = 1 from rfl,
      argsort_one_elem]
    simp only [idxFoldWrite, List.foldl_cons, List.foldl_nil, Function.update_same,
      psiPartVal, psiSumStep]
    norm_num [Real.log_one]
  simp only [gamma_fields, gammaSpec, hpsi]
  norm_num

/-- Claim C1, amended: the at-particle derivative evaluation
(calculate_derivatives) computes the Lorentz factor with the laser term
a2 entering with coefficient 1, as claimed; the probe-mode field
calculation (calculate_fields) instead lets a2 enter with coefficient
1/2. -/
theorem C1_gamma_coefficients (r pr q a2 : List ℝ) (i : Nat) :
    gamma_derivatives r pr q a2 i =
      gammaSpec (pr.getD i 0) (a2.getD i 0) (psiAt r q i) ∧
    gamma_fields r pr q a2 i =
      gammaSpec (pr.getD i 0) (a2.getD i 0 / 2) (psiAt r q i) :=
  ⟨rfl, rfl⟩

/-- Claim C2, counterexample: for the positive, unsorted radii [2, 1]
with charges [1, 1], the offset actually subtracted (raw formula at
r[-1] = 1) differs from the raw formula at the outermost particle
(largest radius 2): they differ by 2 log 2 - 3/4 which is nonzero. -/
theorem C2_counterexample :
    psi_offset [2, 1] [1, 1] ≠ raw_psi [2, 1] [1, 1] 2 ∧
    (∀ x ∈ ([2, 1] : List ℝ), x ≤ 2) ∧ (2 : ℝ) ∈ ([2, 1] : List ℝ) := by
  refine ⟨?_, ?_, ?_⟩
  · have hsort : argsort (fun i => ([2, 1] : List ℝ).getD i 0) 2 = [1, 0] :=
      argsort_two_desc _ (by norm_num)
    simp only [psi_offset, raw_psi, show ([2, 1] : List ℝ).length = 2 from rfl,
      hsort, show List.range 2 = [0, 1] from rfl]
    simp only [List.foldl_cons, List.foldl_nil, List.map_cons, List.map_nil,
      List.sum_cons, List.sum_nil, psiSumStep]
    norm_num [Real.log_one]
    intro h
    nlinarith [Real.log_two_gt_d9]
  · intro x hx
    rcases List.mem_cons.1 hx with h | h
    · rw [h]
    · rcases List.mem_cons.1 h with h2 | h2
      · rw [h2]; norm_num
      · simp at h2
  · simp

/-- Claim C2, amended: the calibration offset subtracted from psi equals
the raw uncalibrated formula evaluated at the particle stored last in
the input arrays (r[-1]); whenever the radii are sorted ascending in
input order, that particle is the outermost one (it has the largest
radius), so the claim holds for sorted inputs. -/
theorem C2_offset_at_last (r q : List ℝ) :
    psi_offset r q = raw_psi r q (r.getD (r.length - 1) 0) ∧
    (r.Sorted (· ≤ ·) → ∀ x ∈ r, x ≤ r.getD (r.length - 1) 0) := by
  constructor
  · rw [psi_offset, raw_psi, psi_sums_total]
  · intro hs x hx
    rcases List.mem_iff_get.1 hx with ⟨k, rfl⟩
    have hlast : r.length - 1 < r.length := by
      have : (k : Nat) < r.length := k.isLt
      omega
    rw [List.getD_eq_get _ _ hlast]
    exact List.Sorted.rel_get_of_le hs (by
      have : (k : Nat) < r.length := k.isLt
      exact Fin.mk_le_mk.2 (by omega))

/-- Witness for the amended claim C2 at the sorted input r = [1, 2],
q = [3, 4]. -/
theorem C2_offset_at_last_witness :
    psi_offset [1, 2] [3, 4] =
      raw_psi [1, 2] [3, 4] (([1, 2] : List ℝ).getD (([1, 2] : List ℝ).length - 1) 0) ∧
    ∀ x ∈ ([1, 2] : List ℝ), x ≤ ([1, 2] : List ℝ).getD (([1, 2] : List ℝ).length - 1) 0 := by
  have h := C2_offset_at_last [1, 2] [3, 4]
  exact ⟨h.1, h.2 (by
    rw [List.sorted_cons]
    constructor
    · intro b hb
      rcases List.mem_cons.1 hb with h1 | h1
      · rw [h1]; norm_num
      · simp at h1
    · simp)⟩

theorem i_last_scan_append (rj : ℝ) (l₁ l₂ : List ℝ) (h : ∀ x ∈ l₁, x < rj) :
    i_last_scan rj (l₁ ++ l₂) = (l₁.length : Int) + i_last_scan rj l₂ := by
  induction l₁ with
  | nil => simp
  | cons a t ih =>
    have ha : ¬ rj ≤ a := not_le.2 (h a (List.mem_cons_self a t))
    have ht : ∀ x ∈ t, x < rj := fun x hx => h x (List.mem_cons_of_mem a hx)
    simp only [List.cons_append, i_last_scan, if_neg ha, List.append_eq, ih ht,
      List.length_cons]
    push_cast
    ring

theorem i_last_scan_cons_ge (rj x : ℝ) (l : List ℝ) (h : rj ≤ x) :
    i_last_scan rj (x :: l) = -1 := by
  simp [i_last_scan, h]

/-- Strictly increasing input radii are already sorted, so the stable
argsort is the identity permutation. -/
theorem argsort_of_strict_sorted (r : List ℝ) (hs : List.Pairwise (· < ·) r) :
    argsort (fun i => r.getD i 0) r.length = List.range r.length := by
  apply argsort_eq_range
  intro i j hij hj
  have := (List.pairwise_iff_getElem.1 hs) i j (lt_trans hij hj) hj hij
  rw [List.getD_eq_getElem _ _ (lt_trans hij hj), List.getD_eq_getElem _ _ hj]
  exact le_of_lt this

/-- The per-particle running-sum array at sorted position k holds the
sums over the first k+1 sorted particles (identity sort case). -/
theorem psiSumsArr_at_range (r q : List ℝ) (k : Nat)
    (hsort : argsort (fun i => r.getD i 0) r.length = List.range r.length)
    (hk : k < r.length) :
    (psiSumsArr r q).1 k = (List.range (k + 1)).foldl (psiSumStep r q) (0, 0) := by
  rw [psiSumsArr, hsort]
  have hsplit : List.range r.length =
      List.range k ++ k :: (List.range r.length).drop (k + 1) := by
    have h1 : List.range r.length =
        (List.range r.length).take (k + 1) ++ (List.range r.length).drop (k + 1) :=
      (List.take_append_drop _ _).symm
    rw [List.take_range] at h1
    have h2 : List.range (min (k + 1) r.length) = List.range (k + 1) := by
      rw [min_eq_left (by omega)]
    rw [h2, List.range_succ] at h1
    simpa using h1
  have hnotmem : k ∉ (List.range r.length).drop (k + 1) :=
    nodup_not_mem_of_split (List.nodup_range _) hsplit
  rw [hsplit, idxFoldWrite_fst_split _ _ _ _ _ _ _ hnotmem, List.range_succ,
    List.foldl_append]
  rfl

/-- Claim C3, counterexample: a single positive-radius particle r=1,
q=1 probed exactly at the outermost radius 1: the calibrated psi is 0,
not the claimed vacuum value -1/4. -/
theorem C3_counterexample :
    (∀ x ∈ ([1] : List ℝ), 0 < x) ∧ (∀ x ∈ ([1] : List ℝ), x ≤ 1) ∧
    psi_probe [1] [1] 1 ≠ -0.25 * 1 ^ 2 := by
  refine ⟨?_, ?_, ?_⟩
  · intro x hx
    rcases List.mem_cons.1 hx with h | h
    · rw [h]; norm_num
    · simp at h
  · intro x hx
    rcases List.mem_cons.1 hx with h | h
    · rw [h]
    · simp at h
  · simp only [psi_probe, psi_offset, show ([1] : List ℝ).length = 1 from rfl,
      argsort_one_elem]
    rw [show (([0] : List Nat).map (fun i => ([1] : List ℝ).getD i 0)) = [1] by
      simp]
    rw [i_last_scan_cons_ge 1 1 [] le_rfl]
    simp only [if_pos rfl, List.foldl_cons, List.foldl_nil, psiSumStep]
    norm_num [Real.log_one]

theorem argsort_map_getD (r : List ℝ)
    (hsort : argsort (fun i => r.getD i 0) r.length = List.range r.length) :
    (argsort (fun i => r.getD i 0) r.length).map (fun i => r.getD i 0) = r := by
  rw [hsort]
  exact map_getD_range r 0

/-- Vacuum branch of the probe-mode psi: the scan found no particle
below the probe radius. -/
theorem psi_probe_at_neg (r q : List ℝ) (rj : ℝ)
    (hscan : i_last_scan rj ((argsort (fun i => r.getD i 0) r.length).map
      (fun i => r.getD i 0)) = -1) :
    psi_probe r q rj = -0.25 * rj ^ 2 - psi_offset r q := by
  rw [psi_probe, hscan, if_pos rfl]

/-- Interior branch of the probe-mode psi: the scan stopped at sorted
position k, so the stored sums over the first k+1 sorted particles are
used (identity sort case). -/
theorem psi_probe_at_pos (r q : List ℝ) (rj : ℝ) (k : Nat)
    (hsort : argsort (fun i => r.getD i 0) r.length = List.range r.length)
    (hscan : i_last_scan rj r = (k : Int)) (hk : k < r.length) :
    psi_probe r q rj =
      ((List.range (k + 1)).foldl (psiSumStep r q) (0, 0)).1 * Real.log rj
        - ((List.range (k + 1)).foldl (psiSumStep r q) (0, 0)).2
        - 0.25 * rj ^ 2 - psi_offset r q := by
  have hmap := argsort_map_getD r hsort
  have hne : ¬ ((k : Int) = -1) := by omega
  rw [psi_probe, hmap, hscan, if_neg hne]
  have htn : ((k : Int)).toNat = k := by omega
  rw [htn, hsort]
  have hget : (List.range r.length).getD k 0 = k := by
    rw [List.getD_eq_getElem _ _ (by simpa using hk), List.getElem_range]
  rw [hget, psiSumsArr_at_range r q k hsort hk]

/-- The calibration offset in terms of the fold over the identity sorted
order. -/
theorem psi_offset_range (r q : List ℝ)
    (hsort : argsort (fun i => r.getD i 0) r.length = List.range r.length) :
    psi_offset r q =
      ((List.range r.length).foldl (psiSumStep r q) (0, 0)).1 *
          Real.log (r.getD (r.length - 1) 0)
        - ((List.range r.length).foldl (psiSumStep r q) (0, 0)).2
        - 0.25 * (r.getD (r.length - 1) 0) ^ 2 := by
  rw [psi_offset, hsort]

/-- Claim C3, amended: for a non-empty column with positive radii listed
in strictly ascending order, the calibrated probe psi at the outermost
particle's radius equals 0 (the calibration anchors psi to zero at the
column edge), and at a probe radius strictly beyond every particle it
equals Sq (log rj - log r_N) - rj^2/4 + r_N^2/4 with Sq the total
charge; it is the claimed vacuum value -rj^2/4 only when that correction
vanishes. -/
theorem C3_psi_probe_calibration (r q : List ℝ) (hne : r ≠ [])
    (hs : List.Pairwise (· < ·) r) :
    psi_probe r q (r.getD (r.length - 1) 0) = 0 ∧
    ∀ rj, (∀ x ∈ r, x < rj) →
      psi_probe r q rj =
        ((List.range r.length).map (fun i => q.getD i 0)).sum *
            (Real.log rj - Real.log (r.getD (r.length - 1) 0))
          - 0.25 * rj ^ 2 + 0.25 * (r.getD (r.length - 1) 0) ^ 2 := by
  have hn : 0 < r.length := List.length_pos.2 hne
  have hsort := argsort_of_strict_sorted r hs
  constructor
  · -- probe exactly at the outermost radius
    have hlast : r.getLast hne = r.getD (r.length - 1) 0 := by
      rw [List.getLast_eq_getElem, List.getD_eq_getElem _ _ (by omega)]
    have helems : ∀ x ∈ r.dropLast, x < r.getD (r.length - 1) 0 := by
      intro x hx
      rcases List.mem_iff_getElem.1 hx with ⟨k, hk, rfl⟩
      have hk1 : k < r.length - 1 := by simpa using hk
      rw [List.getElem_dropLast, List.getD_eq_getElem _ _ (by omega)]
      exact (List.pairwise_iff_getElem.1 hs) k (r.length - 1) (by omega) (by omega) hk1
    have key : ∀ rN : ℝ, (∀ x ∈ r.dropLast, x < rN) → rN = r.getLast hne →
        i_last_scan rN r = ((r.length - 1 : Nat) : Int) - 1 := by
      intro rN hels hrN
      conv_lhs => rw [← List.dropLast_append_getLast hne]
      rw [i_last_scan_append _ _ _ hels, hrN,
        i_last_scan_cons_ge _ _ _ le_rfl, List.length_dropLast]
      ring
    have hscan : i_last_scan (r.getD (r.length - 1) 0) r =
        ((r.length - 1 : Nat) : Int) - 1 := key _ helems hlast.symm
    rcases Nat.lt_or_ge 1 r.length with h2 | h1
    · -- at least two particles: interior branch at sorted position n-2
      have hscan2 : i_last_scan (r.getD (r.length - 1) 0) r =
          ((r.length - 2 : Nat) : Int) := by
        rw [hscan]
        omega
      rw [psi_probe_at_pos r q _ (r.length - 2) hsort hscan2 (by omega),
        psi_offset_range r q hsort]
      have hsucc : (List.range r.length).foldl (psiSumStep r q) (0, 0) =
          psiSumStep r q ((List.range (r.length - 1)).foldl (psiSumStep r q) (0, 0))
            (r.length - 1) := by
        conv_lhs => rw [show r.length = (r.length - 1) + 1 by omega]
        rw [List.range_succ, List.foldl_append, List.foldl_cons, List.foldl_nil]
      have h21 : (r.length - 2) + 1 = r.length - 1 := by omega
      rw [h21, hsucc]
      simp only [psiSumStep]
      ring
    · -- a single particle: vacuum branch
      have h1' : r.length = 1 := by omega
      have hscan1 : i_last_scan (r.getD (r.length - 1) 0)
          ((argsort (fun i => r.getD i 0) r.length).map (fun i => r.getD i 0)) = -1 := by
        rw [argsort_map_getD r hsort, hscan, h1']
        rfl
      rw [psi_probe_at_neg r q _ hscan1, psi_offset_range r q hsort, h1']
      rw [show List.range 1 = [0] from rfl, List.foldl_cons, List.foldl_nil]
      simp only [psiSumStep]
      norm_num
  · -- probe strictly beyond every particle
    intro rj hrj
    have hscan : i_last_scan rj r = ((r.length - 1 : Nat) : Int) := by
      have h := i_last_scan_append rj r [] hrj
      rw [List.append_nil] at h
      rw [h]
      show _ = ((r.length - 1 : Nat) : Int)
      have : i_last_scan rj [] = -1 := rfl
      rw [this]
      omega
    rw [psi_probe_at_pos r q rj (r.length - 1) hsort hscan (by omega),
      psi_offset_range r q hsort]
    have h11 : (r.length - 1) + 1 = r.length := by omega
    rw [h11, psiSumStep_foldl]
    simp only [zero_add]
    ring

/-- Witness for the amended claim C3 at the column r = [1, 2],
q = [1, 1], probed at the outermost radius 2 and beyond it at 3. -/
theorem C3_psi_probe_calibration_witness :
    psi_probe [1, 2] [1, 1]
      (([1, 2] : List ℝ).getD (([1, 2] : List ℝ).length - 1) 0) = 0 ∧
    psi_probe [1, 2] [1, 1] 3 =
      ((List.range ([1, 2] : List ℝ).length).map
          (fun i => ([1, 1] : List ℝ).getD i 0)).sum *
          (Real.log 3 - Real.log (([1, 2] : List ℝ).getD
            (([1, 2] : List ℝ).length - 1) 0))
        - 0.25 * 3 ^ 2 + 0.25 * (([1, 2] : List ℝ).getD
            (([1, 2] : List ℝ).length - 1) 0) ^ 2 := by
  have h := C3_psi_probe_calibration [1, 2] [1, 1] (by simp) (by
    rw [List.pairwise_cons]
    constructor
    · intro x hx
      rcases List.mem_cons.1 hx with h1 | h1
      · rw [h1]; norm_num
      · simp at h1
    · simp)
  refine ⟨h.1, h.2 3 ?_⟩
  intro x hx
  rcases List.mem_cons.1 hx with h1 | h1
  · rw [h1]; norm_num
  · rcases List.mem_cons.1 h1 with h2 | h2
    · rw [h2]; norm_num
    · simp at h2

theorem exists_concat_of_ne {α : Type} (l : List α) (h : l ≠ []) :
    ∃ l₁ j, l = l₁ ++ [j] :=
  ⟨l.dropLast, l.getLast h, (List.dropLast_append_getLast h).symm⟩

theorem idxFoldWrite_concat_fst {σ β : Type} (upd : σ → Nat → σ) (val : σ → Nat → β)
    (l₁ : List Nat) (j : Nat) (s : σ) (A : Nat → β) :
    (idxFoldWrite upd val (l₁ ++ [j]) s A).1 j = val (l₁.foldl upd s) j :=
  idxFoldWrite_fst_split upd val l₁ [] j s A (by simp)

/-- The linear-recursion state (K, U, T, P) of calculate_ai_bi. -/
structure KUTP where
  K : ℝ
  U : ℝ
  T : ℝ
  P : ℝ

/-- One shell of the forward recursion of calculate_ai_bi (solver.py
722-771), with the per-shell coefficients A_i, B_i, C_i and the row
entries l_i, m_i, n_i, o_i exactly as in the source. -/
noncomputable def aibi_step (r pr q gamma psi dr_psi dxi_psi b_theta_0 nabla_a : List ℝ)
    (s : KUTP) (i : Nat) : KUTP :=
  let r_i := r.getD i 0
  let pr_i := pr.getD i 0
  let q_i := q.getD i 0
  let gamma_i := gamma.getD i 0
  let psi_i := psi.getD i 0
  let dr_psi_i := dr_psi.getD i 0
  let dxi_psi_i := dxi_psi.getD i 0
  let b_theta_0_i := b_theta_0.getD i 0
  let nabla_a_i := nabla_a.getD i 0
  let a := 1 + psi_i
  let a2 := a * a
  let a3 := a2 * a
  let b := 1 / (r_i * a)
  let c := 1 / (r_i * a2)
  let pr_i2 := pr_i * pr_i
  let A_i := q_i * b
  let B_i := q_i * (-(gamma_i * dr_psi_i) * c + (pr_i2 * dr_psi_i) / (r_i * a3)
    + (pr_i * dxi_psi_i) * c + pr_i2 / (r_i * r_i * a2) + b_theta_0_i * b
    + nabla_a_i * c * 0.5)
  let C_i := q_i * (pr_i2 * c - (gamma_i / a - 1) / r_i)
  let l_i := 1 + 0.5 * A_i * r_i
  let m_i := 0.5 * A_i / r_i
  let n_i := -0.5 * A_i * r_i ^ 3
  let o_i := 1 - 0.5 * A_i * r_i
  ⟨l_i * s.K + m_i * s.U,
   n_i * s.K + o_i * s.U,
   l_i * s.T + m_i * s.P + 0.5 * B_i + 0.25 * A_i * C_i,
   n_i * s.T + o_i * s.P + r_i * (C_i - 0.5 * B_i * r_i - 0.25 * A_i * C_i * r_i)⟩

/-- The final (K, U, T, P) accumulator of the forward sweep (the values
K_im1, U_im1, T_im1, P_im1 after the loop of calculate_ai_bi). -/
noncomputable def aibi_final (r pr q gamma psi dr_psi dxi_psi b_theta_0 nabla_a : List ℝ) :
    KUTP :=
  (argsort (fun i => r.getD i 0) r.length).foldl
    (aibi_step r pr q gamma psi dr_psi dxi_psi b_theta_0 nabla_a) ⟨1, 0, 0, 0⟩

/-- calculate_ai_bi (solver.py 669-779): the forward sweep over the
sorted particles with initial conditions K_0 = 1, U_0 = T_0 = P_0 = 0,
the closed-form boundary solve a_0 = -T_N/K_N, and the per-particle
coefficients a_i = K_i a_0 + T_i, b_i = U_i a_0 + P_i.  Returns
(a_i, b_i, a_0, idx). -/
noncomputable def calculate_ai_bi
    (r pr q gamma psi dr_psi dxi_psi b_theta_0 nabla_a : List ℝ) :
    (Nat → ℝ) × (Nat → ℝ) × ℝ × List Nat :=
  let res := idxFoldWrite (aibi_step r pr q gamma psi dr_psi dxi_psi b_theta_0 nabla_a)
    (fun s i => aibi_step r pr q gamma psi dr_psi dxi_psi b_theta_0 nabla_a s i)
    (argsort (fun i => r.getD i 0) r.length) ⟨1, 0, 0, 0⟩ (fun _ => ⟨0, 0, 0, 0⟩)
  let a_0 := - res.2.T / res.2.K
  (fun i => (res.1 i).K * a_0 + (res.1 i).T,
   fun i => (res.1 i).U * a_0 + (res.1 i).P,
   a_0,
   argsort (fun i => r.getD i 0) r.length)

/-- Claim C4: for a non-empty column whose final forward coefficient
K_N is nonzero, the single forward sweep with K_0 = 1,
U_0 = T_0 = P_0 = 0 followed by the closed-form a_0 = -T_N/K_N makes
a_i = K_i a_0 + T_i vanish exactly at the outermost sorted particle. -/
theorem C4_boundary_closure (r pr q gamma psi dr_psi dxi_psi b_theta_0 nabla_a : List ℝ)
    (hne : r ≠ [])
    (hK : (aibi_final r pr q gamma psi dr_psi dxi_psi b_theta_0 nabla_a).K ≠ 0) :
    (calculate_ai_bi r pr q gamma psi dr_psi dxi_psi b_theta_0 nabla_a).1
      ((calculate_ai_bi r pr q gamma psi dr_psi dxi_psi b_theta_0 nabla_a).2.2.2.getD
        (r.length - 1) 0) = 0 := by
  have hn : 0 < r.length := List.length_pos.2 hne
  have hlen := argsort_length (fun i => r.getD i 0) r.length
  have hne' : argsort (fun i => r.getD i 0) r.length ≠ [] := by
    intro h
    rw [h] at hlen
    simp only [List.length_nil] at hlen
    omega
  obtain ⟨l₁, j, hconcat⟩ := exists_concat_of_ne _ hne'
  have hl₁ : l₁.length = r.length - 1 := by
    have := hlen
    rw [hconcat] at this
    simp only [List.length_append, List.length_cons, List.length_nil] at this
    omega
  have hgetD : (argsort (fun i => r.getD i 0) r.length).getD (r.length - 1) 0 = j := by
    rw [hconcat]
    have hlt : r.length - 1 < (l₁ ++ [j]).length := by
      simp only [List.length_append, List.length_cons, List.length_nil]
      omega
    rw [List.getD_eq_getElem _ _ hlt]
    exact List.getElem_concat_length l₁ j _ hl₁.symm hlt
  have hfin : aibi_final r pr q gamma psi dr_psi dxi_psi b_theta_0 nabla_a =
      aibi_step r pr q gamma psi dr_psi dxi_psi b_theta_0 nabla_a
        (l₁.foldl (aibi_step r pr q gamma psi dr_psi dxi_psi b_theta_0 nabla_a)
          ⟨1, 0, 0, 0⟩) j := by
    rw [aibi_final, hconcat, List.foldl_append, List.foldl_cons, List.foldl_nil]
  simp only [calculate_ai_bi, hgetD]
  rw [hconcat, idxFoldWrite_concat_fst, idxFoldWrite_snd, ← hconcat]
  rw [show (argsort (fun i => r.getD i 0) r.length).foldl
      (aibi_step r pr q gamma psi dr_psi dxi_psi b_theta_0 nabla_a) ⟨1, 0, 0, 0⟩ =
      aibi_final r pr q gamma psi dr_psi dxi_psi b_theta_0 nabla_a from rfl]
  rw [hfin.symm]
  field_simp
  ring

/-- Witness for claim C4 at a single particle r=1, pr=0, q=1, gamma=1,
psi=0 and zero derivatives and sources, where K_N = 3/2 is nonzero. -/
theorem C4_boundary_closure_witness :
    (calculate_ai_bi [1] [0] [1] [1] [0] [0] [0] [0] [0]).1
      ((calculate_ai_bi [1] [0] [1] [1] [0] [0] [0] [0] [0]).2.2.2.getD
        (([1] : List ℝ).length - 1) 0) = 0 := by
  apply C4_boundary_closure
  · simp
  · simp only [aibi_final, show ([1] : List ℝ).length = 1 from rfl, argsort_one_elem,
      List.foldl_cons, List.foldl_nil, aibi_step]
    norm_num

theorem i_last_scan_ge_neg_one (rj : ℝ) : ∀ rs : List ℝ, -1 ≤ i_last_scan rj rs := by
  intro rs
  induction rs with
  | nil => simp [i_last_scan]
  | cons hd tl ih =>
    by_cases h : rj ≤ hd
    · simp [i_last_scan, h]
    · simp only [i_last_scan, if_neg h]
      omega

/-- What the break-scan guarantees when it stops at a nonnegative
position k: position k is below the probe radius and position k+1 (the
first examined failure, when it exists) is not. -/
theorem i_last_scan_spec (rj : ℝ) :
    ∀ (rs : List ℝ) (k : Nat), i_last_scan rj rs = (k : Int) →
      k < rs.length ∧ rs.getD k 0 < rj ∧
        (k + 1 < rs.length → rj ≤ rs.getD (k + 1) 0) := by
  intro rs
  induction rs with
  | nil =>
    intro k hk
    simp only [i_last_scan] at hk
    omega
  | cons hd tl ih =>
    intro k hk
    by_cases h : rj ≤ hd
    · rw [i_last_scan_cons_ge _ _ _ h] at hk
      omega
    · simp only [i_last_scan, if_neg h] at hk
      rcases Nat.eq_zero_or_pos k with h0 | hpos
    -- the goal after the case split
      · subst h0
        have htl : i_last_scan rj tl = -1 := by omega
        refine ⟨by simp, by simpa using lt_of_not_le h, ?_⟩
        intro hlen
        have hne : tl ≠ [] := by
          intro hnil
          rw [hnil] at hlen
          simp at hlen
        obtain ⟨h2, t2, hcons⟩ := List.exists_cons_of_ne_nil hne
        rw [hcons] at htl
        by_cases hh2 : rj ≤ h2
        · rw [hcons]
          simpa using hh2
        · rw [show i_last_scan rj (h2 :: t2) = i_last_scan rj t2 + 1 by
            simp [i_last_scan, hh2]] at htl
          have := i_last_scan_ge_neg_one rj t2
          omega
      · have htl : i_last_scan rj tl = ((k - 1 : Nat) : Int) := by omega
        obtain ⟨hlen, hbelow, hnext⟩ := ih (k - 1) htl
        refine ⟨by simp; omega, ?_, ?_⟩
        · rw [show k = (k - 1) + 1 by omega, List.getD_cons_succ]
          exact hbelow
        · intro hklen
          rw [show k + 1 = (k - 1 + 1) + 1 by omega, List.getD_cons_succ]
          apply hnext
          simp only [List.length_cons] at hklen
          omega

/-- calculate_b_theta (solver.py 616-666): the azimuthal magnetic field
from the plasma at probe radii, using the break-scan to find the last
sorted shell below each probe point and the continuous one-sided
formula a_i r + b_i / r (a_0 r inside the innermost shell). -/
noncomputable def calculate_b_theta
    (r_arr r pr q gamma psi dr_psi dxi_psi b_theta_0 nabla_a : List ℝ) : Nat → ℝ :=
  fun j =>
    if i_last_scan (r_arr.getD j 0)
        ((calculate_ai_bi r pr q gamma psi dr_psi dxi_psi b_theta_0 nabla_a).2.2.2.map
          (fun i => r.getD i 0)) = -1 then
      (calculate_ai_bi r pr q gamma psi dr_psi dxi_psi b_theta_0 nabla_a).2.2.1 *
        r_arr.getD j 0
    else
      (calculate_ai_bi r pr q gamma psi dr_psi dxi_psi b_theta_0 nabla_a).1
        ((calculate_ai_bi r pr q gamma psi dr_psi dxi_psi b_theta_0 nabla_a).2.2.2.getD
          (i_last_scan (r_arr.getD j 0)
            ((calculate_ai_bi r pr q gamma psi dr_psi dxi_psi b_theta_0 nabla_a).2.2.2.map
              (fun i => r.getD i 0))).toNat 0) * r_arr.getD j 0 +
      (calculate_ai_bi r pr q gamma psi dr_psi dxi_psi b_theta_0 nabla_a).2.1
        ((calculate_ai_bi r pr q gamma psi dr_psi dxi_psi b_theta_0 nabla_a).2.2.2.getD
          (i_last_scan (r_arr.getD j 0)
            ((calculate_ai_bi r pr q gamma psi dr_psi dxi_psi b_theta_0 nabla_a).2.2.2.map
              (fun i => r.getD i 0))).toNat 0) / r_arr.getD j 0

theorem map_argsort_getD (r : List ℝ) (m : Nat) (hm : m < r.length) :
    ((argsort (fun i => r.getD i 0) r.length).map (fun i => r.getD i 0)).getD m 0 =
      r.getD ((argsort (fun i => r.getD i 0) r.length).getD m 0) 0 := by
  have hm' : m < (argsort (fun i => r.getD i 0) r.length).length := by
    rw [argsort_length]
    exact hm
  rw [List.getD_eq_getElem _ _ (by simpa using hm'), List.getElem_map,
    List.getD_eq_getElem _ _ hm']

/-- Claim C5: at a probe radius strictly below every particle radius the
probe-mode b_theta is a_0 rj; otherwise it is a_i rj + b_i / rj
evaluated at the last particle in ascending radial order whose radius is
strictly smaller than the probe radius (continuous one-sided formula,
no averaging). -/
theorem C5_b_theta_probe
    (r_arr r pr q gamma psi dr_psi dxi_psi b_theta_0 nabla_a : List ℝ) (j : Nat)
    (hne : r ≠ []) (hpos : ∀ x ∈ r, 0 < x) :
    ((∀ x ∈ r, r_arr.getD j 0 < x) →
      calculate_b_theta r_arr r pr q gamma psi dr_psi dxi_psi b_theta_0 nabla_a j =
        (calculate_ai_bi r pr q gamma psi dr_psi dxi_psi b_theta_0 nabla_a).2.2.1 *
          r_arr.getD j 0) ∧
    ((∃ x ∈ r, x < r_arr.getD j 0) →
      ∃ p : Nat, p < r.length ∧
        r.getD ((calculate_ai_bi r pr q gamma psi dr_psi dxi_psi
            b_theta_0 nabla_a).2.2.2.getD p 0) 0 < r_arr.getD j 0 ∧
        (∀ p2, p < p2 → p2 < r.length →
          ¬ r.getD ((calculate_ai_bi r pr q gamma psi dr_psi dxi_psi
              b_theta_0 nabla_a).2.2.2.getD p2 0) 0 < r_arr.getD j 0) ∧
        calculate_b_theta r_arr r pr q gamma psi dr_psi dxi_psi b_theta_0 nabla_a j =
          (calculate_ai_bi r pr q gamma psi dr_psi dxi_psi b_theta_0 nabla_a).1
              ((calculate_ai_bi r pr q gamma psi dr_psi dxi_psi
                b_theta_0 nabla_a).2.2.2.getD p 0) * r_arr.getD j 0 +
            (calculate_ai_bi r pr q gamma psi dr_psi dxi_psi b_theta_0 nabla_a).2.1
              ((calculate_ai_bi r pr q gamma psi dr_psi dxi_psi
                b_theta_0 nabla_a).2.2.2.getD p 0) / r_arr.getD j 0) := by
  have hidx : (calculate_ai_bi r pr q gamma psi dr_psi dxi_psi b_theta_0 nabla_a).2.2.2 =
      argsort (fun i => r.getD i 0) r.length := rfl
  have hn : 0 < r.length := List.length_pos.2 hne
  have hlen := argsort_length (fun i => r.getD i 0) r.length
  have hne' : argsort (fun i => r.getD i 0) r.length ≠ [] := by
    intro h
    rw [h] at hlen
    simp only [List.length_nil] at hlen
    omega
  obtain ⟨i0, rest, hcons⟩ := List.exists_cons_of_ne_nil hne'
  have hm0 : i0 ∈ argsort (fun i => r.getD i 0) r.length := by
    rw [hcons]
    exact List.mem_cons_self _ _
  have hi0 : i0 < r.length := argsort_mem_lt _ _ hm0
  have hmem : r.getD i0 0 ∈ r := by
    rw [List.getD_eq_getElem _ _ hi0]
    exact List.getElem_mem _
  constructor
  · intro hall
    have h0 : r_arr.getD j 0 ≤ r.getD i0 0 := le_of_lt (hall _ hmem)
    simp only [calculate_b_theta, hidx, hcons, List.map_cons]
    rw [i_last_scan_cons_ge _ _ _ h0, if_pos rfl]
  · intro hex
    simp only [hidx]
    have hsorted := argsort_sorted (fun i => r.getD i 0) r.length
    have hhead : r.getD i0 0 < r_arr.getD j 0 := by
      obtain ⟨x, hx, hxlt⟩ := hex
      obtain ⟨k, hk, rfl⟩ := List.mem_iff_getElem.1 hx
      have hkidx : k ∈ argsort (fun i => r.getD i 0) r.length :=
        (argsort_perm _ _).mem_iff.2 (List.mem_range.2 hk)
      have hle : r.getD i0 0 ≤ r.getD k 0 := by
        rw [hcons] at hkidx hsorted
        rcases List.mem_cons.1 hkidx with h1 | h1
        · rw [h1]
        · exact (List.pairwise_cons.1 hsorted).1 k h1
      calc r.getD i0 0 ≤ r.getD k 0 := hle
        _ = r[k] := List.getD_eq_getElem _ _ hk
        _ < _ := hxlt
    have hscan_pos : 0 ≤ i_last_scan (r_arr.getD j 0)
        ((argsort (fun i => r.getD i 0) r.length).map (fun i => r.getD i 0)) := by
      rw [hcons, List.map_cons]
      rw [show i_last_scan (r_arr.getD j 0)
            (r.getD i0 0 :: rest.map (fun i => r.getD i 0)) =
          i_last_scan (r_arr.getD j 0) (rest.map (fun i => r.getD i 0)) + 1 by
        rw [i_last_scan, if_neg (not_le.2 hhead)]]
      have := i_last_scan_ge_neg_one (r_arr.getD j 0) (rest.map (fun i => r.getD i 0))
      omega
    set il := i_last_scan (r_arr.getD j 0)
      ((argsort (fun i => r.getD i 0) r.length).map (fun i => r.getD i 0)) with hil
    have hspec := i_last_scan_spec (r_arr.getD j 0)
      ((argsort (fun i => r.getD i 0) r.length).map (fun i => r.getD i 0)) il.toNat
      (by rw [← hil]; omega)
    obtain ⟨hlt, hbelow, hnext⟩ := hspec
    have hrs_len : ((argsort (fun i => r.getD i 0) r.length).map
        (fun i => r.getD i 0)).length = r.length := by
      rw [List.length_map, argsort_length]
    have hplen : il.toNat < r.length := by
      rw [hrs_len] at hlt
      exact hlt
    have hsortedRS : List.Pairwise (· ≤ ·)
        ((argsort (fun i => r.getD i 0) r.length).map (fun i => r.getD i 0)) :=
      List.pairwise_map.2 hsorted
    refine ⟨il.toNat, hplen, ?_, ?_, ?_⟩
    · rw [← map_argsort_getD r il.toNat hplen]
      exact hbelow
    · intro p2 hp2 hp2len
      rw [not_lt, ← map_argsort_getD r p2 hp2len]
      have h1 : r_arr.getD j 0 ≤ ((argsort (fun i => r.getD i 0) r.length).map
          (fun i => r.getD i 0)).getD (il.toNat + 1) 0 := by
        apply hnext
        rw [hrs_len]
        omega
      rcases Nat.lt_or_ge (il.toNat + 1) p2 with hcase | hcase
      · have h2 : ((argsort (fun i => r.getD i 0) r.length).map
            (fun i => r.getD i 0)).getD (il.toNat + 1) 0 ≤
            ((argsort (fun i => r.getD i 0) r.length).map
              (fun i => r.getD i 0)).getD p2 0 := by
          have hp2' : p2 < ((argsort (fun i => r.getD i 0) r.length).map
              (fun i => r.getD i 0)).length := by
            rw [hrs_len]
            exact hp2len
          have h1' : il.toNat + 1 < ((argsort (fun i => r.getD i 0) r.length).map
              (fun i => r.getD i 0)).length := by omega
          rw [List.getD_eq_getElem _ _ h1', List.getD_eq_getElem _ _ hp2']
          exact (List.pairwise_iff_getElem.1 hsortedRS) _ _ h1' hp2' hcase
        exact le_trans h1 h2
      · have hp2eq : p2 = il.toNat + 1 := by omega
        rw [hp2eq]
        exact h1
    · simp only [calculate_b_theta, hidx]
      rw [← hil, if_neg (by omega)]

/-- Witness for claim C5 on the column r = [1, 3] (pr = 0, q = 1,
gamma = 1, psi and sources 0) with probe radii 0.5 (inside the innermost
shell) and 2 (between the two shells). -/
theorem C5_b_theta_probe_witness :
    (calculate_b_theta [0.5, 2] [1, 3] [0, 0] [1, 1] [1, 1] [0, 0] [0, 0] [0, 0]
        [0, 0] [0, 0] 0 =
      (calculate_ai_bi [1, 3] [0, 0] [1, 1] [1, 1] [0, 0] [0, 0] [0, 0] [0, 0]
        [0, 0]).2.2.1 * ([0.5, 2] : List ℝ).getD 0 0) ∧
    (∃ p : Nat, p < ([1, 3] : List ℝ).length ∧
      ([1, 3] : List ℝ).getD ((calculate_ai_bi [1, 3] [0, 0] [1, 1] [1, 1] [0, 0]
          [0, 0] [0, 0] [0, 0] [0, 0]).2.2.2.getD p 0) 0 < ([0.5, 2] : List ℝ).getD 1 0 ∧
      (∀ p2, p < p2 → p2 < ([1, 3] : List ℝ).length →
        ¬ ([1, 3] : List ℝ).getD ((calculate_ai_bi [1, 3] [0, 0] [1, 1] [1, 1] [0, 0]
            [0, 0] [0, 0] [0, 0] [0, 0]).2.2.2.getD p2 0) 0 <
          ([0.5, 2] : List ℝ).getD 1 0) ∧
      calculate_b_theta [0.5, 2] [1, 3] [0, 0] [1, 1] [1, 1] [0, 0] [0, 0] [0, 0]
          [0, 0] [0, 0] 1 =
        (calculate_ai_bi [1, 3] [0, 0] [1, 1] [1, 1] [0, 0] [0, 0] [0, 0] [0, 0]
            [0, 0]).1
            ((calculate_ai_bi [1, 3] [0, 0] [1, 1] [1, 1] [0, 0] [0, 0] [0, 0] [0, 0]
              [0, 0]).2.2.2.getD p 0) * ([0.5, 2] : List ℝ).getD 1 0 +
          (calculate_ai_bi [1, 3] [0, 0] [1, 1] [1, 1] [0, 0] [0, 0] [0, 0] [0, 0]
              [0, 0]).2.1
            ((calculate_ai_bi [1, 3] [0, 0] [1, 1] [1, 1] [0, 0] [0, 0] [0, 0] [0, 0]
              [0, 0]).2.2.2.getD p 0) / ([0.5, 2] : List ℝ).getD 1 0) := by
  have hne : ([1, 3] : List ℝ) ≠ [] := by simp
  have hpos : ∀ x ∈ ([1, 3] : List ℝ), 0 < x := by
    intro x hx
    rcases List.mem_cons.1 hx with h | h
    · rw [h]; norm_num
    · rcases List.mem_cons.1 h with h2 | h2
      · rw [h2]; norm_num
      · simp at h2
  constructor
  · exact (C5_b_theta_probe [0.5, 2] [1, 3] [0, 0] [1, 1] [1, 1] [0, 0] [0, 0] [0, 0]
      [0, 0] [0, 0] 0 hne hpos).1 (by
        intro x hx
        rcases List.mem_cons.1 hx with h | h
        · rw [h]
          norm_num [List.getD_cons_zero]
        · rcases List.mem_cons.1 h with h2 | h2
          · rw [h2]
            norm_num [List.getD_cons_zero]
          · simp at h2)
  · exact (C5_b_theta_probe [0.5, 2] [1, 3] [0, 0] [1, 1] [1, 1] [0, 0] [0, 0] [0, 0]
      [0, 0] [0, 0] 1 hne hpos).2 ⟨1, by simp, by
        norm_num [List.getD_cons_succ, List.getD_cons_zero]⟩

/-- The reflection of negative radial positions (np.where(r < 0) with
r *= -1), used at both correction sites (motion_derivatives 242-249 and
update_particles_rk4 345-349): the new radius array, pointwise. -/
noncomputable def reflect_r (r : Nat → ℝ) : Nat → ℝ := fun i =>
  if r i < 0 then -(r i) else r i

/-- The companion momentum flip (pr *= -1 on the same indices): the new
radial momentum array, pointwise. -/
noncomputable def reflect_pr (r pr : Nat → ℝ) : Nat → ℝ := fun i =>
  if r i < 0 then -(pr i) else pr i

/-- motion_derivatives (solver.py 230-265): reflects any particle with
negative radius (on a private copy) before handing the state to the
source-term and derivative computation, which is abstracted here as the
collaborator rest (it closes over dxi, xi, q and the laser and beam
providers). -/
noncomputable def motion_derivatives
    (rest : (Nat → ℝ) → (Nat → ℝ) → (Nat → ℝ) × (Nat → ℝ))
    (r pr : Nat → ℝ) : (Nat → ℝ) × (Nat → ℝ) :=
  rest (reflect_r r) (reflect_pr r pr)

/-- update_particles_rk4 (solver.py 331-350): the RK4 combination
r += (Ar + 2(Br + Cr) + Dr)/6, pr += (Apr + 2(Bpr + Cpr) + Dpr)/6,
followed by the in-place reflection of negative radii. -/
noncomputable def update_particles_rk4
    (r pr Ar Br Cr Dr Apr Bpr Cpr Dpr : Nat → ℝ) : (Nat → ℝ) × (Nat → ℝ) :=
  let r1 := fun i => r i + (Ar i + 2 * (Br i + Cr i) + Dr i) * (1 / 6)
  let pr1 := fun i => pr i + (Apr i + 2 * (Bpr i + Cpr i) + Dpr i) * (1 / 6)
  (reflect_r r1, reflect_pr r1 pr1)

/-- evolve_plasma (solver.py 174-227): one RK4 step; the four stage
derivative pairs are produced by the EOM evaluator motionDeriv
(motion_derivatives closed over q and the source providers) at the four
stage states, then combined by update_particles_rk4. -/
noncomputable def evolve_plasma
    (motionDeriv : ℝ → ℝ → (Nat → ℝ) → (Nat → ℝ) → (Nat → ℝ) × (Nat → ℝ))
    (xi dxi : ℝ) (r pr : Nat → ℝ) : (Nat → ℝ) × (Nat → ℝ) :=
  let A := motionDeriv dxi xi r pr
  let B := motionDeriv dxi (xi - dxi / 2) (fun i => r i + A.1 i / 2)
    (fun i => pr i + A.2 i / 2)
  let C := motionDeriv dxi (xi - dxi / 2) (fun i => r i + B.1 i / 2)
    (fun i => pr i + B.2 i / 2)
  let D := motionDeriv dxi (xi - dxi) (fun i => r i + C.1 i) (fun i => pr i + C.2 i)
  update_particles_rk4 r pr A.1 B.1 C.1 D.1 A.2 B.2 C.2 D.2

/-- Claim C7: one integrator step updates each particle by the classical
RK4 combination (k1 + 2 k2 + 2 k3 + k4)/6 of the four stage derivatives,
which are the EOM evaluator applied at (xi, r, pr),
(xi - dxi/2, r + k1/2, pr + k1p/2), (xi - dxi/2, r + k2/2, pr + k2p/2)
and (xi - dxi, r + k3, pr + k3p); afterwards any particle with negative
radius is reflected in place. -/
theorem C7_rk4_step
    (F : ℝ → ℝ → (Nat → ℝ) → (Nat → ℝ) → (Nat → ℝ) × (Nat → ℝ))
    (xi dxi : ℝ) (r pr : Nat → ℝ) (i : Nat) :
    (evolve_plasma F xi dxi r pr).1 i =
      (let k1 := F dxi xi r pr
       let k2 := F dxi (xi - dxi / 2) (fun m => r m + k1.1 m / 2)
         (fun m => pr m + k1.2 m / 2)
       let k3 := F dxi (xi - dxi / 2) (fun m => r m + k2.1 m / 2)
         (fun m => pr m + k2.2 m / 2)
       let k4 := F dxi (xi - dxi) (fun m => r m + k3.1 m) (fun m => pr m + k3.2 m)
       let rNew := r i + (k1.1 i + 2 * k2.1 i + 2 * k3.1 i + k4.1 i) / 6
       if rNew < 0 then -rNew else rNew) ∧
    (evolve_plasma F xi dxi r pr).2 i =
      (let k1 := F dxi xi r pr
       let k2 := F dxi (xi - dxi / 2) (fun m => r m + k1.1 m / 2)
         (fun m => pr m + k1.2 m / 2)
       let k3 := F dxi (xi - dxi / 2) (fun m => r m + k2.1 m / 2)
         (fun m => pr m + k2.2 m / 2)
       let k4 := F dxi (xi - dxi) (fun m => r m + k3.1 m) (fun m => pr m + k3.2 m)
       let rNew := r i + (k1.1 i + 2 * k2.1 i + 2 * k3.1 i + k4.1 i) / 6
       let prNew := pr i + (k1.2 i + 2 * k2.2 i + 2 * k3.2 i + k4.2 i) / 6
       if rNew < 0 then -prNew else prNew) := by
  simp only [evolve_plasma, update_particles_rk4, reflect_r, reflect_pr]
  have harith : ∀ a b c d e : ℝ,
      a + (b + 2 * (c + d) + e) * (1 / 6) = a + (b + 2 * c + 2 * d + e) / 6 := by
    intro a b c d e
    ring
  rw [harith, harith]
  exact ⟨rfl, rfl⟩

/-- Claim C8: at both reflection sites (the pre-solve correction of
motion_derivatives and the post-combination correction of
update_particles_rk4, which both apply the pointwise reflection
reflect_r / reflect_pr), a particle with negative radius gets its radius
and momentum negated, so afterwards the radius is nonnegative, the sign
of pr flips and both magnitudes are preserved exactly; particles with
nonnegative radius are untouched.  The last conjunct records that
motion_derivatives feeds exactly the reflected state to the rest of the
evaluation. -/
theorem C8_reflection_invariant (r pr : Nat → ℝ) (i : Nat) :
    ((r i < 0 → reflect_r r i = -(r i) ∧ 0 ≤ reflect_r r i ∧
        reflect_pr r pr i = -(pr i) ∧ |reflect_r r i| = |r i| ∧
        |reflect_pr r pr i| = |pr i|) ∧
      (0 ≤ r i → reflect_r r i = r i ∧ reflect_pr r pr i = pr i)) ∧
    ∀ rest : (Nat → ℝ) → (Nat → ℝ) → (Nat → ℝ) × (Nat → ℝ),
      motion_derivatives rest r pr = rest (reflect_r r) (reflect_pr r pr) := by
  refine ⟨⟨?_, ?_⟩, fun rest => rfl⟩
  · intro hneg
    have h1 : reflect_r r i = -(r i) := by
      show (if r i < 0 then -(r i) else r i) = -(r i)
      exact if_pos hneg
    have h2 : reflect_pr r pr i = -(pr i) := by
      show (if r i < 0 then -(pr i) else pr i) = -(pr i)
      exact if_pos hneg
    rw [h1, h2]
    refine ⟨rfl, by linarith, rfl, abs_neg _, abs_neg _⟩
  · intro hpos
    have h1 : reflect_r r i = r i := by
      show (if r i < 0 then -(r i) else r i) = r i
      exact if_neg (not_lt.2 hpos)
    have h2 : reflect_pr r pr i = pr i := by
      show (if r i < 0 then -(pr i) else pr i) = pr i
      exact if_neg (not_lt.2 hpos)
    exact ⟨h1, h2⟩

/-- Witness for claim C8 at r = -2, pr = 3 (reflected) and r = 2,
pr = 3 (untouched). -/
theorem C8_reflection_invariant_witness :
    (reflect_r (fun _ => -2) 0 = -(-2 : ℝ) ∧ 0 ≤ reflect_r (fun _ => -2) 0 ∧
      reflect_pr (fun _ => -2) (fun _ => 3) 0 = -(3 : ℝ) ∧
      |reflect_r (fun _ => -2) 0| = |(-2 : ℝ)| ∧
      |reflect_pr (fun _ => -2) (fun _ => 3) 0| = |(3 : ℝ)|) ∧
    (reflect_r (fun _ => 2) 0 = (2 : ℝ) ∧
      reflect_pr (fun _ => 2) (fun _ => 3) 0 = (3 : ℝ)) := by
  constructor
  · exact ((C8_reflection_invariant (fun _ => -2) (fun _ => 3) 0).1).1 (by norm_num)
  · exact ((C8_reflection_invariant (fun _ => 2) (fun _ => 3) 0).1).2 (by norm_num)

/-- push_momentum of the Boris pusher (boris_pusher.py 41-78), with the
physical constants e, m_e, c and the time step dt as parameters
(k = -e dt / (2 m_e c)).  Returns the updated (px, py, pz) arrays. -/
noncomputable def push_momentum (e m_e c dt : ℝ)
    (px py pz Ex Ey Ez Bx By Bz : Nat → ℝ) :
    (Nat → ℝ) × (Nat → ℝ) × (Nat → ℝ) :=
  let k := -e * dt / (m_e * 2 * c)
  let p_minus_x := fun i => px i + k * Ex i
  let p_minus_y := fun i => py i + k * Ey i
  let p_minus_z := fun i => pz i + k * Ez i
  let c_over_gamma_med := fun i =>
    c / Real.sqrt (1 + (p_minus_x i ^ 2 + p_minus_y i ^ 2 + p_minus_z i ^ 2))
  let t_x := fun i => k * c_over_gamma_med i * Bx i
  let t_y := fun i => k * c_over_gamma_med i * By i
  let t_z := fun i => k * c_over_gamma_med i * Bz i
  let cons_s := fun i => 2 / (1 + t_x i ^ 2 + t_y i ^ 2 + t_z i ^ 2)
  let s_x := fun i => cons_s i * t_x i
  let s_y := fun i => cons_s i * t_y i
  let s_z := fun i => cons_s i * t_z i
  let p_xc1 := fun i => p_minus_x i + p_minus_y i * t_z i - p_minus_z i * t_y i
  let p_yc1 := fun i => p_minus_y i + p_minus_z i * t_x i - p_minus_x i * t_z i
  let p_zc1 := fun i => p_minus_z i + p_minus_x i * t_y i - p_minus_y i * t_x i
  (fun i => p_minus_x i + p_yc1 i * s_z i - p_zc1 i * s_y i + k * Ex i,
   fun i => p_minus_y i + p_zc1 i * s_x i - p_xc1 i * s_z i + k * Ey i,
   fun i => p_minus_z i + p_xc1 i * s_y i - p_yc1 i * s_x i + k * Ez i)

/-- Claim C10: a particle whose six gathered field components are all
zero keeps its momentum exactly unchanged under the Boris push. -/
theorem C10_push_momentum_zero_field (e m_e c dt : ℝ)
    (px py pz Ex Ey Ez Bx By Bz : Nat → ℝ) (i : Nat)
    (hEx : Ex i = 0) (hEy : Ey i = 0) (hEz : Ez i = 0)
    (hBx : Bx i = 0) (hBy : By i = 0) (hBz : Bz i = 0) :
    (push_momentum e m_e c dt px py pz Ex Ey Ez Bx By Bz).1 i = px i ∧
    (push_momentum e m_e c dt px py pz Ex Ey Ez Bx By Bz).2.1 i = py i ∧
    (push_momentum e m_e c dt px py pz Ex Ey Ez Bx By Bz).2.2 i = pz i := by
  simp only [push_momentum, hEx, hEy, hEz, hBx, hBy, hBz, mul_zero, add_zero,
    zero_mul, sub_zero, zero_div, zero_add]
  refine ⟨by ring, by ring, by ring⟩

/-- Witness for claim C10 at momentum (1, 2, 3) and all fields zero. -/
theorem C10_push_momentum_zero_field_witness :
    (push_momentum 1 1 1 1 (fun _ => 1) (fun _ => 2) (fun _ => 3) (fun _ => 0)
        (fun _ => 0) (fun _ => 0) (fun _ => 0) (fun _ => 0) (fun _ => 0)).1 0 = 1 ∧
    (push_momentum 1 1 1 1 (fun _ => 1) (fun _ => 2) (fun _ => 3) (fun _ => 0)
        (fun _ => 0) (fun _ => 0) (fun _ => 0) (fun _ => 0) (fun _ => 0)).2.1 0 = 2 ∧
    (push_momentum 1 1 1 1 (fun _ => 1) (fun _ => 2) (fun _ => 3) (fun _ => 0)
        (fun _ => 0) (fun _ => 0) (fun _ => 0) (fun _ => 0) (fun _ => 0)).2.2 0 = 3 :=
  C10_push_momentum_zero_field 1 1 1 1 (fun _ => 1) (fun _ => 2) (fun _ => 3)
    (fun _ => 0) (fun _ => 0) (fun _ => 0) (fun _ => 0) (fun _ => 0) (fun _ => 0) 0
    rfl rfl rfl rfl rfl rfl

/-- The particle-removal step of the driver loop (solver.py 135-140):
idx_keep = np.where(r <= r_max + 0.1) followed by fancy-indexing of the
r, pr and q arrays with idx_keep. -/
noncomputable def removeOutside (r_max : ℝ) (r pr q : List ℝ) :
    List ℝ × List ℝ × List ℝ :=
  (((List.range r.length).filter (fun i => decide (r.getD i 0 ≤ r_max + 0.1))).map
      (fun i => r.getD i 0),
   ((List.range r.length).filter (fun i => decide (r.getD i 0 ≤ r_max + 0.1))).map
      (fun i => pr.getD i 0),
   ((List.range r.length).filter (fun i => decide (r.getD i 0 ≤ r_max + 0.1))).map
      (fun i => q.getD i 0))

theorem filter_range_map_getD {α : Type} (p : ℝ → Bool) :
    ∀ (r : List ℝ) (w : List α) (d : α), w.length = r.length →
      ((List.range r.length).filter (fun i => p (r.getD i 0))).map (fun i => w.getD i d) =
        ((r.zip w).filter (fun x => p x.1)).map Prod.snd := by
  intro r
  induction r with
  | nil =>
    intro w d h
    rfl
  | cons a t ih =>
    intro w d hw
    rcases w with _ | ⟨b, wt⟩
    · simp at hw
    · have hwt : wt.length = t.length := by simpa using hw
      rw [List.length_cons, List.range_succ_eq_map, List.filter_cons, List.zip_cons_cons,
        List.filter_cons]
      have hpred : ((fun i => p ((a :: t).getD i 0)) ∘ Nat.succ) =
          (fun i => p (t.getD i 0)) := by
        funext i
        simp [Function.comp, List.getD_cons_succ]
      have hshift : (List.filter (fun i => p ((a :: t).getD i 0))
          (List.map Nat.succ (List.range t.length))) =
          List.map Nat.succ (List.filter (fun i => p (t.getD i 0))
            (List.range t.length)) := by
        rw [List.filter_map, hpred]
      have hcomp : ((fun i => (b :: wt).getD i d) ∘ Nat.succ) =
          fun i => wt.getD i d := by
        funext i
        simp [Function.comp, List.getD_cons_succ]
      by_cases h : p a = true
      · rw [if_pos (show p ((a :: t).getD 0 0) = true from h),
          if_pos (show p (a, b).1 = true from h)]
        rw [List.map_cons, hshift, List.map_map, List.map_cons]
        rw [List.getD_cons_zero, hcomp, ih wt d hwt]
      · rw [if_neg (show ¬ p ((a :: t).getD 0 0) = true from h),
          if_neg (show ¬ p (a, b).1 = true from h)]
        rw [hshift, List.map_map]
        rw [hcomp, ih wt d hwt]

theorem zip_self_filter_map_snd (p : ℝ → Bool) (r : List ℝ) :
    ((r.zip r).filter (fun x => p x.1)).map Prod.snd = r.filter p := by
  induction r with
  | nil => rfl
  | cons a t ih =>
    rw [List.zip_cons_cons, List.filter_cons, List.filter_cons]
    by_cases h : p a = true
    · rw [if_pos (show p (a, a).1 = true from h), if_pos h, List.map_cons, ih]
    · rw [if_neg (show ¬ p (a, a).1 = true from h), if_neg h, ih]

/-- The surviving arrays of the removal step are the value-filtered
subsequences: the kept entries are exactly those with r <= r_max + 0.1,
in their original relative order. -/
theorem removeOutside_eq (r_max : ℝ) (r pr q : List ℝ)
    (hpr : pr.length = r.length) (hq : q.length = r.length) :
    removeOutside r_max r pr q =
      (r.filter (fun x => decide (x ≤ r_max + 0.1)),
       ((r.zip pr).filter (fun x => decide (x.1 ≤ r_max + 0.1))).map Prod.snd,
       ((r.zip q).filter (fun x => decide (x.1 ≤ r_max + 0.1))).map Prod.snd) := by
  rw [removeOutside]
  rw [filter_range_map_getD (fun x => decide (x ≤ r_max + 0.1)) r r 0 rfl,
    zip_self_filter_map_snd (fun x => decide (x ≤ r_max + 0.1)) r,
    filter_range_map_getD (fun x => decide (x ≤ r_max + 0.1)) r pr 0 hpr,
    filter_range_map_getD (fun x => decide (x ≤ r_max + 0.1)) r q 0 hq]

/-- The xi-stepping driver loop of calculate_wakefields (solver.py
127-158), abstracted over its collaborators: evolve is the integrator
(closed over the laser and beam providers and the skin depth) and
fields is the probe-mode field evaluation producing one mesh column;
the deposition collaborators are omitted (no claim touches them).  The
mesh column of step s is written at position n_xi - 1 - s (the negative
index -1-step of the source) and the loop breaks before computing
fields when the removal empties the column.  k is the number of
remaining steps and s the current step index; the trailing Nat of the
result counts the completed column-writing steps (instrumentation, not
part of the source). -/
noncomputable def driverRun {γ : Type}
    (evolve : ℝ → List ℝ → List ℝ → List ℝ → List ℝ × List ℝ)
    (fields : ℝ → List ℝ → List ℝ → List ℝ → γ)
    (r_max xi_max dxi : ℝ) (n_xi : Nat) :
    Nat → Nat → List ℝ → List ℝ → List ℝ → List γ →
      List γ × (List ℝ × List ℝ × List ℝ) × Nat
  | 0, _, r, pr, q, mesh => (mesh, (r, pr, q), 0)
  | k + 1, s, r, pr, q, mesh =>
    let xi := xi_max - dxi * (s : ℝ)
    let ev := evolve xi r pr q
    let rem := removeOutside r_max ev.1 ev.2 q
    if rem.1.length = 0 then (mesh, rem, 0)
    else
      let res := driverRun evolve fields r_max xi_max dxi n_xi k (s + 1)
        rem.1 rem.2.1 rem.2.2
        (mesh.set (n_xi - 1 - s) (fields xi rem.1 rem.2.1 rem.2.2))
      (res.1, res.2.1, res.2.2 + 1)

theorem removeOutside_q_sublist (r_max : ℝ) (r1 pr1 q : List ℝ)
    (hq : q.length = r1.length) :
    (removeOutside r_max r1 pr1 q).2.2.Sublist q := by
  have h : (removeOutside r_max r1 pr1 q).2.2 =
      ((r1.zip q).filter (fun x => decide (x.1 ≤ r_max + 0.1))).map Prod.snd := by
    rw [removeOutside]
    exact filter_range_map_getD (fun x => decide (x ≤ r_max + 0.1)) r1 q 0 hq
  rw [h]
  have h2 : (((r1.zip q).filter (fun x => decide (x.1 ≤ r_max + 0.1))).map
      Prod.snd).Sublist ((r1.zip q).map Prod.snd) :=
    (List.filter_sublist _).map Prod.snd
  rw [List.map_snd_zip r1 q (le_of_eq hq)] at h2
  exact h2

theorem removeOutside_len_eq (r_max : ℝ) (r1 pr1 q : List ℝ) :
    (removeOutside r_max r1 pr1 q).2.2.length = (removeOutside r_max r1 pr1 q).1.length := by
  rw [removeOutside]
  simp [List.length_map]

/-- Once removed, particles never come back: across any number of driver
steps the surviving charge array is a subsequence of the starting one. -/
theorem driverRun_q_sublist {γ : Type}
    (evolve : ℝ → List ℝ → List ℝ → List ℝ → List ℝ × List ℝ)
    (fields : ℝ → List ℝ → List ℝ → List ℝ → γ)
    (r_max xi_max dxi : ℝ) (n_xi : Nat)
    (hE : ∀ xi a b c, (evolve xi a b c).1.length = a.length) :
    ∀ (k s : Nat) (r pr q : List ℝ) (mesh : List γ), q.length = r.length →
      ((driverRun evolve fields r_max xi_max dxi n_xi k s r pr q mesh).2.1.2.2).Sublist
        q := by
  intro k
  induction k with
  | zero =>
    intro s r pr q mesh _
    exact List.Sublist.refl q
  | succ k ih =>
    intro s r pr q mesh hq
    simp only [driverRun]
    have hlen : q.length = (evolve (xi_max - dxi * (s : ℝ)) r pr q).1.length := by
      rw [hE]
      exact hq
    have hq2 : ((removeOutside r_max (evolve (xi_max - dxi * (s : ℝ)) r pr q).1
        (evolve (xi_max - dxi * (s : ℝ)) r pr q).2 q).2.2).Sublist q :=
      removeOutside_q_sublist _ _ _ _ hlen
    by_cases hbr : (removeOutside r_max (evolve (xi_max - dxi * (s : ℝ)) r pr q).1
        (evolve (xi_max - dxi * (s : ℝ)) r pr q).2 q).1.length = 0
    · rw [if_pos hbr]
      exact hq2
    · rw [if_neg hbr]
      exact (ih (s + 1) _ _ _ _ (by rw [removeOutside_len_eq])).trans hq2

/-- Claim C6: after the integrator returns, exactly the particles with
r > r_max + 0.1 are removed (the kept r, pr, q arrays are the
order-preserving compacted subsequences of entries with
r <= r_max + 0.1); the removal is never undone (the surviving charge
array after any number of further steps is a subsequence of the current
one); and when the surviving set is empty the loop stops at once,
computing no fields and writing no mesh column for that step. -/
theorem C6_particle_removal {γ : Type}
    (evolve : ℝ → List ℝ → List ℝ → List ℝ → List ℝ × List ℝ)
    (fields : ℝ → List ℝ → List ℝ → List ℝ → γ)
    (r_max xi_max dxi : ℝ) (n_xi k s : Nat) (r pr q : List ℝ) (mesh : List γ)
    (hpr : pr.length = r.length) (hq : q.length = r.length)
    (hE : ∀ xi a b c, (evolve xi a b c).1.length = a.length) :
    removeOutside r_max r pr q =
      (r.filter (fun x => decide (x ≤ r_max + 0.1)),
       ((r.zip pr).filter (fun x => decide (x.1 ≤ r_max + 0.1))).map Prod.snd,
       ((r.zip q).filter (fun x => decide (x.1 ≤ r_max + 0.1))).map Prod.snd) ∧
    ((driverRun evolve fields r_max xi_max dxi n_xi k s r pr q mesh).2.1.2.2).Sublist q ∧
    ((removeOutside r_max (evolve (xi_max - dxi * (s : ℝ)) r pr q).1
        (evolve (xi_max - dxi * (s : ℝ)) r pr q).2 q).1 = [] →
      driverRun evolve fields r_max xi_max dxi n_xi (k + 1) s r pr q mesh =
        (mesh, removeOutside r_max (evolve (xi_max - dxi * (s : ℝ)) r pr q).1
          (evolve (xi_max - dxi * (s : ℝ)) r pr q).2 q, 0)) := by
  refine ⟨removeOutside_eq r_max r pr q hpr hq,
    driverRun_q_sublist evolve fields r_max xi_max dxi n_xi hE k s r pr q mesh hq, ?_⟩
  intro hempty
  simp only [driverRun]
  rw [if_pos (by rw [hempty]; rfl)]

/-- Witness for claim C6: a single particle at r = 5 with r_max = 1 is
removed by the margin rule, the loop stops at once and the mesh stays
untouched. -/
theorem C6_particle_removal_witness :
    removeOutside 1 [5] [2] [4] =
      (([5] : List ℝ).filter (fun x => decide (x ≤ (1 : ℝ) + 0.1)),
       ((([5] : List ℝ).zip ([2] : List ℝ)).filter
         (fun x => decide (x.1 ≤ (1 : ℝ) + 0.1))).map Prod.snd,
       ((([5] : List ℝ).zip ([4] : List ℝ)).filter
         (fun x => decide (x.1 ≤ (1 : ℝ) + 0.1))).map Prod.snd) ∧
    ((driverRun (fun _ a b _ => (a, b)) (fun _ _ _ _ => (0 : ℝ)) 1 0 1 2 1 0
      [5] [2] [4] [0, 0]).2.1.2.2).Sublist [4] ∧
    driverRun (fun _ a b _ => (a, b)) (fun _ _ _ _ => (0 : ℝ)) 1 0 1 2 2 0
      [5] [2] [4] [0, 0] = ([0, 0], removeOutside 1 [5] [2] [4], 0) := by
  have hrem : (removeOutside (1 : ℝ) [5] [2] [4]).1 = [] := by
    have h := removeOutside_eq (1 : ℝ) [5] [2] [4] rfl rfl
    rw [h]
    show List.filter (fun x => decide (x ≤ (1 : ℝ) + 0.1)) [5] = []
    rw [List.filter_cons, if_neg]
    · rfl
    · simp only [decide_eq_true_eq]
      norm_num
  have h := C6_particle_removal (fun _ a b _ => (a, b)) (fun _ _ _ _ => (0 : ℝ))
    1 0 1 2 1 0 [5] [2] [4] [0, 0] rfl rfl (fun _ _ _ _ => rfl)
  exact ⟨h.1, h.2.1, h.2.2 hrem⟩

/-- Unfolding equation for a non-breaking driver step. -/
theorem driverRun_succ_of_not_break {γ : Type}
    (evolve : ℝ → List ℝ → List ℝ → List ℝ → List ℝ × List ℝ)
    (fields : ℝ → List ℝ → List ℝ → List ℝ → γ)
    (r_max xi_max dxi : ℝ) (n_xi k s : Nat) (r pr q : List ℝ) (mesh : List γ)
    (hbr : ¬ (removeOutside r_max (evolve (xi_max - dxi * (s : ℝ)) r pr q).1
      (evolve (xi_max - dxi * (s : ℝ)) r pr q).2 q).1.length = 0) :
    driverRun evolve fields r_max xi_max dxi n_xi (k + 1) s r pr q mesh =
      ((driverRun evolve fields r_max xi_max dxi n_xi k (s + 1)
          (removeOutside r_max (evolve (xi_max - dxi * (s : ℝ)) r pr q).1
            (evolve (xi_max - dxi * (s : ℝ)) r pr q).2 q).1
          (removeOutside r_max (evolve (xi_max - dxi * (s : ℝ)) r pr q).1
            (evolve (xi_max - dxi * (s : ℝ)) r pr q).2 q).2.1
          (removeOutside r_max (evolve (xi_max - dxi * (s : ℝ)) r pr q).1
            (evolve (xi_max - dxi * (s : ℝ)) r pr q).2 q).2.2
          (mesh.set (n_xi - 1 - s)
            (fields (xi_max - dxi * (s : ℝ))
              (removeOutside r_max (evolve (xi_max - dxi * (s : ℝ)) r pr q).1
                (evolve (xi_max - dxi * (s : ℝ)) r pr q).2 q).1
              (removeOutside r_max (evolve (xi_max - dxi * (s : ℝ)) r pr q).1
                (evolve (xi_max - dxi * (s : ℝ)) r pr q).2 q).2.1
              (removeOutside r_max (evolve (xi_max - dxi * (s : ℝ)) r pr q).1
                (evolve (xi_max - dxi * (s : ℝ)) r pr q).2 q).2.2))).1,
       (driverRun evolve fields r_max xi_max dxi n_xi k (s + 1)
          (removeOutside r_max (evolve (xi_max - dxi * (s : ℝ)) r pr q).1
            (evolve (xi_max - dxi * (s : ℝ)) r pr q).2 q).1
          (removeOutside r_max (evolve (xi_max - dxi * (s : ℝ)) r pr q).1
            (evolve (xi_max - dxi * (s : ℝ)) r pr q).2 q).2.1
          (removeOutside r_max (evolve (xi_max - dxi * (s : ℝ)) r pr q).1
            (evolve (xi_max - dxi * (s : ℝ)) r pr q).2 q).2.2
          (mesh.set (n_xi - 1 - s)
            (fields (xi_max - dxi * (s : ℝ))
              (removeOutside r_max (evolve (xi_max - dxi * (s : ℝ)) r pr q).1
                (evolve (xi_max - dxi * (s : ℝ)) r pr q).2 q).1
              (removeOutside r_max (evolve (xi_max - dxi * (s : ℝ)) r pr q).1
                (evolve (xi_max - dxi * (s : ℝ)) r pr q).2 q).2.1
              (removeOutside r_max (evolve (xi_max - dxi * (s : ℝ)) r pr q).1
                (evolve (xi_max - dxi * (s : ℝ)) r pr q).2 q).2.2))).2.1,
       (driverRun evolve fields r_max xi_max dxi n_xi k (s + 1)
          (removeOutside r_max (evolve (xi_max - dxi * (s : ℝ)) r pr q).1
            (evolve (xi_max - dxi * (s : ℝ)) r pr q).2 q).1
          (removeOutside r_max (evolve (xi_max - dxi * (s : ℝ)) r pr q).1
            (evolve (xi_max - dxi * (s : ℝ)) r pr q).2 q).2.1
          (removeOutside r_max (evolve (xi_max - dxi * (s : ℝ)) r pr q).1
            (evolve (xi_max - dxi * (s : ℝ)) r pr q).2 q).2.2
          (mesh.set (n_xi - 1 - s)
            (fields (xi_max - dxi * (s : ℝ))
              (removeOutside r_max (evolve (xi_max - dxi * (s : ℝ)) r pr q).1
                (evolve (xi_max - dxi * (s : ℝ)) r pr q).2 q).1
              (removeOutside r_max (evolve (xi_max - dxi * (s : ℝ)) r pr q).1
                (evolve (xi_max - dxi * (s : ℝ)) r pr q).2 q).2.1
              (removeOutside r_max (evolve (xi_max - dxi * (s : ℝ)) r pr q).1
                (evolve (xi_max - dxi * (s : ℝ)) r pr q).2 q).2.2))).2.2 + 1) := by
  simp only [driverRun]
  rw [if_neg hbr]

/-- Mesh columns below the written window keep their initial values: the
driver writes only the columns n_xi - 1 - s' for the completed steps s'
of the run. -/
theorem driverRun_mesh_unchanged {γ : Type}
    (evolve : ℝ → List ℝ → List ℝ → List ℝ → List ℝ × List ℝ)
    (fields : ℝ → List ℝ → List ℝ → List ℝ → γ)
    (r_max xi_max dxi : ℝ) (n_xi : Nat) (z : γ) :
    ∀ (k s : Nat) (r pr q : List ℝ) (mesh : List γ) (j : Nat),
      s + k ≤ n_xi →
      j + s + (driverRun evolve fields r_max xi_max dxi n_xi k s r pr q mesh).2.2 <
        n_xi →
      (driverRun evolve fields r_max xi_max dxi n_xi k s r pr q mesh).1.getD j z =
        mesh.getD j z := by
  intro k
  induction k with
  | zero =>
    intro s r pr q mesh j _ _
    rfl
  | succ k ih =>
    intro s r pr q mesh j hks hj
    by_cases hbr : (removeOutside r_max (evolve (xi_max - dxi * (s : ℝ)) r pr q).1
        (evolve (xi_max - dxi * (s : ℝ)) r pr q).2 q).1.length = 0
    · have hm : (driverRun evolve fields r_max xi_max dxi n_xi (k + 1) s r pr q
          mesh).1 = mesh := by
        simp only [driverRun]
        rw [if_pos hbr]
      rw [hm]
    · rw [driverRun_succ_of_not_break evolve fields r_max xi_max dxi n_xi
        k s r pr q mesh hbr] at hj ⊢
      dsimp only at hj ⊢
      rw [ih (s + 1) _ _ _ _ j (by omega) (by omega)]
      rw [List.getD_eq_getElem?_getD, List.getD_eq_getElem?_getD,
        List.getElem?_set_ne (show n_xi - 1 - s ≠ j by omega)]

/-- Claim C9: starting the driver at step s on a zero-initialized mesh,
every column not reached by the completed steps (all columns j with
j + s + completed < n_xi; the completed steps fill columns from the
xi_max end backwards) retains its zero value; in particular this covers
an early termination caused by an emptied column, and the run is a
total function so no error is raised. -/
theorem C9_early_termination {γ : Type}
    (evolve : ℝ → List ℝ → List ℝ → List ℝ → List ℝ × List ℝ)
    (fields : ℝ → List ℝ → List ℝ → List ℝ → γ)
    (r_max xi_max dxi : ℝ) (n_xi : Nat) (z : γ) (k s : Nat)
    (r pr q : List ℝ) (j : Nat)
    (hks : s + k ≤ n_xi)
    (hj : j + s + (driverRun evolve fields r_max xi_max dxi n_xi k s r pr q
      (List.replicate n_xi z)).2.2 < n_xi) :
    (driverRun evolve fields r_max xi_max dxi n_xi k s r pr q
      (List.replicate n_xi z)).1.getD j z = z := by
  rw [driverRun_mesh_unchanged evolve fields r_max xi_max dxi n_xi z k s r pr q
    (List.replicate n_xi z) j hks hj]
  rw [List.getD_eq_getElem?_getD, List.getElem?_replicate]
  have hjn : j < n_xi := by omega
  rw [if_pos hjn]
  rfl

/-- Witness for claim C9: an integrator that moves the single particle
to r = 2 with r_max = 1 empties the column at the first step of a
two-step run, so no mesh column is written and column 1 keeps its zero
value. -/
theorem C9_early_termination_witness :
    (driverRun (fun _ _ _ _ => ([2], [0])) (fun _ _ _ _ => (37 : ℝ)) 1 0 1 2 2 0
      [1] [0] [1] (List.replicate 2 (0 : ℝ))).1.getD 1 (0 : ℝ) = 0 := by
  apply C9_early_termination
  · norm_num
  · have hrem : (removeOutside (1 : ℝ) [2] [0] [1]).1.length = 0 := by
      have h := removeOutside_eq (1 : ℝ) [2] [0] [1] rfl rfl
      rw [h]
      show (List.filter (fun x => decide (x ≤ (1 : ℝ) + 0.1)) [2]).length = 0
      rw [List.filter_cons, if_neg]
      · rfl
      · simp only [decide_eq_true_eq]
        norm_num
    have hc : (driverRun (fun _ _ _ _ => ([(2 : ℝ)], [0])) (fun _ _ _ _ => (37 : ℝ))
        1 0 1 2 2 0 [1] [0] [1] (List.replicate 2 (0 : ℝ))).2.2 = 0 := by
      simp only [driverRun]
      rw [if_pos hrem]
    rw [hc]
    norm_num
